import Mathlib

namespace Annote

/-- A row of the local SQLite `notes` table (schema in `src/db/database.ts`):
columns `id` (TEXT PRIMARY KEY), `user_id`, `title`, `content`, `created_at`,
`updated_at`, `synced` (INTEGER 0/1), `deleted` (INTEGER 0/1).  The same shape
is used for the in-memory `Note` objects of the zustand store. -/
structure Note where
  id : String
  user_id : String
  title : String
  content : String
  created_at : String
  updated_at : String
  synced : Bool
  deleted : Bool
deriving DecidableEq, Repr

/-- A row of the remote (Supabase) `notes` collection: same columns as the
local table except that the remote has no `synced` flag. -/
structure RNote where
  id : String
  user_id : String
  title : String
  content : String
  created_at : String
  updated_at : String
  deleted : Bool
deriving DecidableEq, Repr

/-- The remote calls the notes store can issue against the Supabase `notes`
collection, tagged with the id (or the owner, for a pull) they target.
`pull` is the select in `fetchNotes`; `insertRow` the insert in `createNote`;
`updateRow` the update in `updateNote`; `markDeleted` the
`update (deleted = true)` used by `deleteNote` and by the deletion loop of
`syncNotes`; `upsertRow` the upsert in the push loop of `syncNotes`. -/
inductive RemoteCall where
  | pull (user_id : String)
  | insertRow (id : String)
  | updateRow (id : String)
  | markDeleted (id : String)
  | upsertRow (id : String)
deriving DecidableEq, Repr

/-- Failure model for the network: an oracle decides which remote calls fail
with a RemoteError (`true` = that call fails). -/
abbrev Oracle := RemoteCall → Bool

/-- The oracle of a reachable, healthy backend: no remote call fails. -/
def okOracle : Oracle := fun _ => false

/-- Ambient context of the store: the authenticated user (from the auth
store) and the `isOnline` flag. -/
structure Env where
  user : Option String
  isOnline : Bool

/-- The state touched by the notes store: the local SQLite table `db`, the
remote collection `remote`, and the zustand fields `notes`, `loading`,
`error`. -/
structure St where
  db : List Note
  remote : List RNote
  notes : List Note
  loading : Bool
  error : Option String
deriving DecidableEq, Repr

/-- Insertion step for sorting by a string key, descending (SQLite
`ORDER BY updated_at DESC`). -/
def insertByDesc {α : Type} (key : α → String) (r : α) : List α → List α
  | [] => [r]
  | x :: xs =>
    if compare (key r) (key x) == Ordering.lt then x :: insertByDesc key r xs
    else r :: x :: xs

/-- Sort a list by a string key, descending. -/
def sortByDesc {α : Type} (key : α → String) (l : List α) : List α :=
  l.foldr (insertByDesc key) []

/-- `SELECT * FROM notes WHERE user_id = ? AND deleted = 0 ORDER BY updated_at DESC`. -/
def selectActive (u : String) (db : List Note) : List Note :=
  sortByDesc (fun r => r.updated_at) (db.filter fun r => r.user_id == u && !r.deleted)

/-- The spec's `listActive(owner_id)` over a store state. -/
def listActive (u : String) (st : St) : List Note :=
  selectActive u st.db

/-- `SELECT * FROM notes WHERE user_id = ? AND synced = 0 AND deleted = 0`
(the `notesToSync` query of `syncNotes`). -/
def dirtyNotes (u : String) (db : List Note) : List Note :=
  db.filter fun r => r.user_id == u && !r.synced && !r.deleted

/-- `SELECT id FROM notes WHERE user_id = ? AND synced = 0 AND deleted = 1`
(the `deletionsToSync` query of `syncNotes`). -/
def dirtyDeletions (u : String) (db : List Note) : List String :=
  (db.filter fun r => r.user_id == u && !r.synced && r.deleted).map (fun r => r.id)

/-- `UPDATE notes SET synced = 1 WHERE id = ?`. -/
def setSynced (i : String) (db : List Note) : List Note :=
  db.map fun r => if r.id == i then { r with synced := true } else r

/-- `UPDATE notes SET title = ?, content = ?, updated_at = ?, synced = ? WHERE id = ?`
(local write of `updateNote`). -/
def updateLocal (i title content now : String) (syncedVal : Bool) (db : List Note) :
    List Note :=
  db.map fun r =>
    if r.id == i then
      { r with title := title, content := content, updated_at := now, synced := syncedVal }
    else r

/-- `UPDATE notes SET deleted = 1, synced = ? WHERE id = ?` (local write of
`deleteNote`). -/
def deleteLocal (i : String) (syncedVal : Bool) (db : List Note) : List Note :=
  db.map fun r =>
    if r.id == i then { r with deleted := true, synced := syncedVal } else r

/-- The local row written for a pulled remote record:
`INSERT OR REPLACE INTO notes (...) VALUES (?, ?, ?, ?, ?, ?, 1, 0)`. -/
def pulledNote (r : RNote) : Note :=
  ⟨r.id, r.user_id, r.title, r.content, r.created_at, r.updated_at, true, false⟩

/-- `INSERT OR REPLACE` keyed on the primary key `id`: any existing row with
that id is removed and the new row inserted. -/
def upsertLocal (n : Note) (db : List Note) : List Note :=
  (db.filter fun r => !(n.id == r.id)) ++ [n]

/-- The pull write-back loop of `fetchNotes`: upsert every fetched remote
record into the local table, in order. -/
def applyPull (data : List RNote) (db : List Note) : List Note :=
  data.foldl (fun acc r => upsertLocal (pulledNote r) acc) db

/-- Whether some fetched record carries the given id. -/
def hasId (data : List RNote) (i : String) : Bool :=
  data.any fun d => d.id == i

/-- The remote select of `fetchNotes`:
`select * where user_id = u and deleted = false order by updated_at desc`. -/
def remoteSelectActive (u : String) (rdb : List RNote) : List RNote :=
  sortByDesc (fun r => r.updated_at) (rdb.filter fun r => r.user_id == u && !r.deleted)

/-- The remote insert of `createNote` (a plain insert of a fresh id). -/
def remoteInsert (r : RNote) (rdb : List RNote) : List RNote :=
  rdb ++ [r]

/-- The remote update of `updateNote`:
`update (title, content, updated_at) where id = i and user_id = u`. -/
def remoteUpdate (i u title content now : String) (rdb : List RNote) : List RNote :=
  rdb.map fun r =>
    if r.id == i && r.user_id == u then
      { r with title := title, content := content, updated_at := now }
    else r

/-- The remote soft delete used by `deleteNote` and the deletion loop of
`syncNotes`: `update (deleted = true) where id = i and user_id = u`. -/
def remoteMarkDeleted (i u : String) (rdb : List RNote) : List RNote :=
  rdb.map fun r =>
    if r.id == i && r.user_id == u then { r with deleted := true } else r

/-- The remote upsert of the push loop of `syncNotes` (`onConflict: id`): on a
conflict the listed columns are updated (the remote `deleted` flag is not in
the payload, so it is preserved); otherwise the row is inserted with the
remote default `deleted = false`. -/
def remoteUpsert (n : Note) (rdb : List RNote) : List RNote :=
  if rdb.any (fun r => r.id == n.id) then
    rdb.map fun r =>
      if r.id == n.id then
        { r with user_id := n.user_id, title := n.title, content := n.content,
                 created_at := n.created_at, updated_at := n.updated_at }
      else r
  else
    rdb ++ [⟨n.id, n.user_id, n.title, n.content, n.created_at, n.updated_at, false⟩]

/-- `fetchNotes` (`src/store/notesStore.ts` lines 43–141).  With no
authenticated user it clears the in-memory list and records an error.
Otherwise it reads the local active rows, publishes them, and — when online —
pulls the remote active rows and upserts each of them into the local table
(`synced = 1, deleted = 0`), re-reading the local table afterwards.  A failed
pull is swallowed (the local data stays published, no error field is set). -/
def fetchNotes (env : Env) (o : Oracle) (st : St) : St × List RemoteCall :=
  match env.user with
  | none => ({ st with notes := [], error := some "User not authenticated" }, [])
  | some u =>
    let stA := { st with loading := true, error := none }
    let localNotes := selectActive u stA.db
    let stB := { stA with notes := localNotes, loading := false }
    if env.isOnline then
      if o (RemoteCall.pull u) then
        (stB, [RemoteCall.pull u])
      else
        let data := remoteSelectActive u stB.remote
        let db2 := applyPull data stB.db
        ({ stB with db := db2, notes := selectActive u db2 }, [RemoteCall.pull u])
    else
      (stB, [])

/-- `createNote` (`src/store/notesStore.ts` lines 143–213).  `now` is the
ISO timestamp and `id` the client-generated fresh id (timestamp + random
suffix; assumed not to collide with an existing row).  The local insert
writes `synced = isOnline ? 0 : 1`; the returned in-memory object carries
`synced = isOnline`.  When online the insert is mirrored; on success the
local row is set `synced = 1` and the returned object gets `synced = true`;
a mirror failure is swallowed.  Ends by running `fetchNotes`. -/
def createNote (env : Env) (o : Oracle) (now id title content : String) (st : St) :
    (St × List RemoteCall) × Option Note :=
  match env.user with
  | none => (({ st with error := some "User not authenticated" }, []), none)
  | some u =>
    let row : Note := ⟨id, u, title, content, now, now,
      if env.isOnline then false else true, false⟩
    let stA := { st with db := st.db ++ [row] }
    let newNote : Note := ⟨id, u, title, content, now, now, env.isOnline, false⟩
    if env.isOnline then
      if o (RemoteCall.insertRow id) then
        let fr := fetchNotes env o stA
        ((fr.1, RemoteCall.insertRow id :: fr.2), some newNote)
      else
        let stB := { stA with
          remote := remoteInsert ⟨id, u, title, content, now, now, false⟩ stA.remote,
          db := setSynced id stA.db }
        let fr := fetchNotes env o stB
        ((fr.1, RemoteCall.insertRow id :: fr.2), some { newNote with synced := true })
    else
      let fr := fetchNotes env o stA
      ((fr.1, fr.2), some newNote)

/-- `updateNote` (`src/store/notesStore.ts` lines 215–265).  The local update
writes `synced = isOnline ? 0 : 1`; when online the update is mirrored
(`eq id, eq user_id`), on success the local row is set `synced = 1`, and a
mirror failure is swallowed.  Ends by running `fetchNotes`. -/
def updateNote (env : Env) (o : Oracle) (now id title content : String) (st : St) :
    St × List RemoteCall :=
  match env.user with
  | none => ({ st with error := some "User not authenticated" }, [])
  | some u =>
    let stA := { st with
      db := updateLocal id title content now (if env.isOnline then false else true) st.db }
    if env.isOnline then
      if o (RemoteCall.updateRow id) then
        let fr := fetchNotes env o stA
        (fr.1, RemoteCall.updateRow id :: fr.2)
      else
        let stB := { stA with
          remote := remoteUpdate id u title content now stA.remote,
          db := setSynced id stA.db }
        let fr := fetchNotes env o stB
        (fr.1, RemoteCall.updateRow id :: fr.2)
    else
      let fr := fetchNotes env o stA
      (fr.1, fr.2)

/-- `deleteNote` (`src/store/notesStore.ts` lines 267–312).  The local write
sets `deleted = 1, synced = isOnline ? 0 : 1`; when online the deletion is
mirrored as `update (deleted = true)`, on success the local row is set
`synced = 1`, and a mirror failure is swallowed.  Ends with `fetchNotes`. -/
def deleteNote (env : Env) (o : Oracle) (id : String) (st : St) :
    St × List RemoteCall :=
  match env.user with
  | none => ({ st with error := some "User not authenticated" }, [])
  | some u =>
    let stA := { st with
      db := deleteLocal id (if env.isOnline then false else true) st.db }
    if env.isOnline then
      if o (RemoteCall.markDeleted id) then
        let fr := fetchNotes env o stA
        (fr.1, RemoteCall.markDeleted id :: fr.2)
      else
        let stB := { stA with
          remote := remoteMarkDeleted id u stA.remote,
          db := setSynced id stA.db }
        let fr := fetchNotes env o stB
        (fr.1, RemoteCall.markDeleted id :: fr.2)
    else
      let fr := fetchNotes env o stA
      (fr.1, fr.2)

/-- One iteration of the push loop of `syncNotes` (lines 358–382): upsert the
dirty note remotely; on success set the local row `synced = 1`; a failure is
logged and skipped. -/
def pushOne (o : Oracle) (st : St) (n : Note) : St × List RemoteCall :=
  if o (RemoteCall.upsertRow n.id) then (st, [RemoteCall.upsertRow n.id])
  else
    ({ st with remote := remoteUpsert n st.remote, db := setSynced n.id st.db },
     [RemoteCall.upsertRow n.id])

/-- The push loop of `syncNotes` over the `notesToSync` list. -/
def pushNotes (o : Oracle) (ns : List Note) (st : St) : St × List RemoteCall :=
  match ns with
  | [] => (st, [])
  | n :: rest =>
    let s1 := pushOne o st n
    let s2 := pushNotes o rest s1.1
    (s2.1, s1.2 ++ s2.2)

/-- One iteration of the deletion loop of `syncNotes` (lines 385–402): mirror
the tombstone (`update deleted = true`); on success set the local row
`synced = 1`; a failure is logged and skipped. -/
def pushDelOne (o : Oracle) (u : String) (st : St) (i : String) : St × List RemoteCall :=
  if o (RemoteCall.markDeleted i) then (st, [RemoteCall.markDeleted i])
  else
    ({ st with remote := remoteMarkDeleted i u st.remote, db := setSynced i st.db },
     [RemoteCall.markDeleted i])

/-- The deletion loop of `syncNotes` over the `deletionsToSync` ids. -/
def pushDels (o : Oracle) (u : String) (ids : List String) (st : St) :
    St × List RemoteCall :=
  match ids with
  | [] => (st, [])
  | i :: rest =>
    let s1 := pushDelOne o u st i
    let s2 := pushDels o u rest s1.1
    (s2.1, s1.2 ++ s2.2)

/-- The push phase of `syncNotes`: both dirty queries run first (lines
329–355), then the push loop, then the deletion loop. -/
def pushPhase (o : Oracle) (u : String) (st : St) : St × List RemoteCall :=
  let ns := dirtyNotes u st.db
  let ds := dirtyDeletions u st.db
  let s1 := pushNotes o ns st
  let s2 := pushDels o u ds s1.1
  (s2.1, s1.2 ++ s2.2)

/-- `syncNotes` (`src/store/notesStore.ts` lines 314–414): no-op without a
user; offline it only records an error.  Online it pushes the dirty notes and
dirty tombstones of the current user and then runs `fetchNotes` (which pulls
from the remote and re-reads the local table). -/
def syncNotes (env : Env) (o : Oracle) (st : St) : St × List RemoteCall :=
  match env.user with
  | none => (st, [])
  | some u =>
    if env.isOnline then
      let st0 := { st with loading := true, error := none }
      let p := pushPhase o u st0
      let fr := fetchNotes env o p.1
      ({ fr.1 with loading := false }, p.2 ++ fr.2)
    else
      ({ st with error := some "Cannot sync: device is offline" }, [])

/-- `clearUserNotes` (`src/store/notesStore.ts` lines 416–429):
`DELETE FROM notes WHERE user_id = ?`, then clear the in-memory list. -/
def clearUserNotes (u : String) (st : St) : St :=
  { st with db := st.db.filter (fun r => !(r.user_id == u)), notes := [] }

/-- Whether a remote call is the pull select of `fetchNotes`. -/
def isPull : RemoteCall → Bool
  | RemoteCall.pull _ => true
  | _ => false

/-- Whether a remote call belongs to the push phase of `syncNotes` (upsert of
a dirty record, or propagation of a dirty tombstone). -/
def isPush : RemoteCall → Bool
  | RemoteCall.upsertRow _ => true
  | RemoteCall.markDeleted _ => true
  | _ => false

/-- A trace in which every pull strictly precedes every push-phase call —
the order claimed by the spec for one reconcile pass. -/
def pullStrictlyBeforePush (cs : List RemoteCall) : Prop :=
  ∀ i : Fin cs.length, ∀ j : Fin cs.length,
    isPull (cs.get i) = true → isPush (cs.get j) = true → i.val < j.val

instance instDecPullStrictlyBeforePush (cs : List RemoteCall) :
    Decidable (pullStrictlyBeforePush cs) := by
  unfold pullStrictlyBeforePush
  infer_instance

/-! ### Helper lemmas about the sorting used by the `ORDER BY` clauses -/

theorem insertByDesc_perm {α : Type} (key : α → String) (r : α) (l : List α) :
    List.Perm (insertByDesc key r l) (r :: l) := by
  induction l with
  | nil => exact List.Perm.refl _
  | cons x xs ih =>
    by_cases h : (compare (key r) (key x) == Ordering.lt) = true
    · simp only [insertByDesc, h, if_true]
      exact (List.Perm.cons x ih).trans (List.Perm.swap r x xs)
    · simp only [insertByDesc, h, if_false]
      exact List.Perm.refl _

theorem sortByDesc_perm {α : Type} (key : α → String) (l : List α) :
    List.Perm (sortByDesc key l) l := by
  induction l with
  | nil => exact List.Perm.refl _
  | cons x xs ih =>
    exact (insertByDesc_perm key x (sortByDesc key xs)).trans (List.Perm.cons x ih)

theorem mem_sortByDesc {α : Type} (key : α → String) (l : List α) (a : α) :
    a ∈ sortByDesc key l ↔ a ∈ l :=
  (sortByDesc_perm key l).mem_iff

/-! ### Helper lemmas about the pull write-back (`INSERT OR REPLACE` loop) -/

theorem applyPull_cons (a : RNote) (rest : List RNote) (db : List Note) :
    applyPull (a :: rest) db = applyPull rest (upsertLocal (pulledNote a) db) := rfl

theorem hasId_cons (a : RNote) (rest : List RNote) (i : String) :
    hasId (a :: rest) i = ((a.id == i) || hasId rest i) := by
  simp [hasId]

/-- Normal form of the pull write-back: rows whose id is not among the pulled
records are kept verbatim (in order), and the pulled rows end up in a suffix
that only depends on the pulled data. -/
theorem applyPull_eq_filter_append (data : List RNote) (db : List Note) :
    applyPull data db =
      db.filter (fun r => !(hasId data r.id)) ++ applyPull data [] := by
  induction data generalizing db with
  | nil => simp [applyPull, hasId]
  | cons a rest ih =>
    rw [applyPull_cons, applyPull_cons a rest []]
    rw [ih (upsertLocal (pulledNote a) db), ih (upsertLocal (pulledNote a) [])]
    show (upsertLocal (pulledNote a) db).filter _ ++ _ = _
    rw [upsertLocal, upsertLocal]
    simp only [List.filter_append, List.filter_nil, List.nil_append, List.append_assoc,
      List.filter_filter]
    congr 1
    apply List.filter_congr
    intro r _
    rw [hasId_cons]
    show (!(hasId rest r.id) && !((pulledNote a).id == r.id)) = _
    have : (pulledNote a).id = a.id := rfl
    rw [this, Bool.not_or, Bool.and_comm]

theorem mem_applyPull_nil (data : List RNote) (x : Note) (hx : x ∈ applyPull data []) :
    ∃ r ∈ data, x = pulledNote r := by
  induction data with
  | nil => simp [applyPull] at hx
  | cons a rest ih =>
    rw [applyPull_cons a rest [], applyPull_eq_filter_append rest (upsertLocal (pulledNote a) [])] at hx
    rcases List.mem_append.mp hx with h | h
    · have hmem := (List.mem_filter.mp h).1
      rw [upsertLocal] at hmem
      simp only [List.filter_nil, List.nil_append, List.mem_singleton] at hmem
      exact ⟨a, List.mem_cons_self a rest, hmem⟩
    · rcases ih h with ⟨r, hr, hxr⟩
      exact ⟨r, List.mem_cons_of_mem a hr, hxr⟩

theorem hasId_of_mem_applyPull_nil (data : List RNote) (x : Note)
    (hx : x ∈ applyPull data []) : hasId data x.id = true := by
  rcases mem_applyPull_nil data x hx with ⟨r, hr, rfl⟩
  simp only [hasId, List.any_eq_true]
  exact ⟨r, hr, by simp [pulledNote]⟩

/-- Replaying the same pull on a table that already absorbed it changes
nothing. -/
theorem applyPull_idem (data : List RNote) (db : List Note) :
    applyPull data (applyPull data db) = applyPull data db := by
  conv_lhs => rw [applyPull_eq_filter_append data (applyPull data db),
    applyPull_eq_filter_append data db]
  rw [applyPull_eq_filter_append data db]
  rw [List.filter_append, List.filter_filter]
  have h1 : List.filter (fun r => !(hasId data r.id)) (applyPull data []) = [] := by
    rw [List.filter_eq_nil_iff]
    intro x hx
    simp [hasId_of_mem_applyPull_nil data x hx]
  rw [h1, List.append_nil]
  congr 1
  apply List.filter_congr
  intro r _
  cases h : hasId data r.id <;> simp [h]

theorem hasId_eq_false_of_nodup (a : RNote) (rest : List RNote)
    (h : (List.map RNote.id (a :: rest)).Nodup) : hasId rest a.id = false := by
  simp only [List.map_cons, List.nodup_cons] at h
  rcases h with ⟨hnotin, _⟩
  by_contra hany
  rw [Bool.not_eq_false, hasId, List.any_eq_true] at hany
  rcases hany with ⟨d, hd, hbeq⟩
  have hde : d.id = a.id := by simpa using hbeq
  exact hnotin (hde ▸ List.mem_map_of_mem RNote.id hd)

/-- A pulled record lands in the local table (as `pulledNote`). -/
theorem pulledNote_mem_applyPull_nil (data : List RNote) (r : RNote)
    (hnodup : (data.map RNote.id).Nodup) (hr : r ∈ data) :
    pulledNote r ∈ applyPull data [] := by
  induction data with
  | nil => cases hr
  | cons a rest ih =>
    rw [applyPull_cons a rest [],
      applyPull_eq_filter_append rest (upsertLocal (pulledNote a) [])]
    rcases List.mem_cons.mp hr with hra | hr2
    · apply List.mem_append_left
      rw [upsertLocal]
      simp only [List.filter_nil, List.nil_append]
      subst hra
      rw [List.mem_filter]
      refine ⟨List.mem_singleton_self _, ?_⟩
      have hfalse := hasId_eq_false_of_nodup r rest hnodup
      show (!(hasId rest (pulledNote r).id)) = true
      have : (pulledNote r).id = r.id := rfl
      rw [this, hfalse]
      rfl
    · apply List.mem_append_right
      refine ih ?_ hr2
      simp only [List.map_cons, List.nodup_cons] at hnodup
      exact hnodup.2

theorem pulledNote_mem_applyPull (data : List RNote) (db : List Note) (r : RNote)
    (hnodup : (data.map RNote.id).Nodup) (hr : r ∈ data) :
    pulledNote r ∈ applyPull data db := by
  rw [applyPull_eq_filter_append]
  exact List.mem_append_right _ (pulledNote_mem_applyPull_nil data r hnodup hr)

/-- After a pull, the only rows carrying a pulled id are the pulled rows. -/
theorem applyPull_unique (data : List RNote) (db : List Note) (r : RNote)
    (hnodup : (data.map RNote.id).Nodup) (hr : r ∈ data) :
    ∀ x ∈ applyPull data db, x.id = r.id → x = pulledNote r := by
  intro x hx hid
  rw [applyPull_eq_filter_append] at hx
  rcases List.mem_append.mp hx with h | h
  · exfalso
    have hcond := (List.mem_filter.mp h).2
    have hhas : hasId data x.id = true := by
      rw [hid]
      simp only [hasId, List.any_eq_true]
      exact ⟨r, hr, by simp⟩
    rw [hhas] at hcond
    simp at hcond
  · rcases mem_applyPull_nil data x h with ⟨q, hq, hxq⟩
    have hqid : q.id = r.id := by
      have : (pulledNote q).id = q.id := rfl
      rw [hxq, this] at hid
      exact hid
    have hqr : q = r := List.inj_on_of_nodup_map hnodup hq hr hqid
    rw [hxq, hqr]

/-! ### Helper lemmas about the push loops of `syncNotes` -/

theorem pushNotes_cons (o : Oracle) (n : Note) (rest : List Note) (st : St) :
    pushNotes o (n :: rest) st =
      ((pushNotes o rest (pushOne o st n).1).1,
       (pushOne o st n).2 ++ (pushNotes o rest (pushOne o st n).1).2) := rfl

/-- The push loop only flips `synced` flags locally: the table it leaves is a
pointwise map of the table it started from, marking exactly the rows whose id
was pushed successfully. -/
theorem pushNotes_db (o : Oracle) (ns : List Note) (st : St) :
    (pushNotes o ns st).1.db = st.db.map (fun r =>
      if ns.any (fun m => r.id == m.id && !(o (RemoteCall.upsertRow m.id))) then
        { r with synced := true } else r) := by
  induction ns generalizing st with
  | nil =>
    show st.db = _
    simp
  | cons n rest ih =>
    rw [pushNotes_cons]
    show (pushNotes o rest (pushOne o st n).1).1.db = _
    rw [ih]
    by_cases ho : o (RemoteCall.upsertRow n.id) = true
    · have hone : (pushOne o st n).1 = st := by simp [pushOne, ho]
      rw [hone]
      apply List.map_congr_left
      intro r _
      simp only [List.any_cons, ho, Bool.not_true, Bool.and_false, Bool.false_or]
    · rw [Bool.not_eq_true] at ho
      have hone : (pushOne o st n).1.db = setSynced n.id st.db := by
        simp [pushOne, ho]
      rw [hone, setSynced, List.map_map]
      apply List.map_congr_left
      intro r _
      show (if rest.any _ then _ else _) = _
      by_cases hr : (r.id == n.id) = true
      · simp only [Function.comp, hr, if_true, List.any_cons, ho, Bool.not_false,
          Bool.and_true, Bool.true_or]
        by_cases hc : rest.any
            (fun m => (({ r with synced := true } : Note).id == m.id
              && !(o (RemoteCall.upsertRow m.id)))) = true
        · simp [hc]
        · simp [hc]
      · have hr2 : (r.id == n.id) = false := by rwa [Bool.not_eq_true] at hr
        simp only [Function.comp, hr2, Bool.false_eq_true, if_false, List.any_cons, ho,
          Bool.not_false, Bool.and_true, Bool.false_or]

theorem pushDels_cons (o : Oracle) (u : String) (i : String) (rest : List String)
    (st : St) :
    pushDels o u (i :: rest) st =
      ((pushDels o u rest (pushDelOne o u st i).1).1,
       (pushDelOne o u st i).2 ++ (pushDels o u rest (pushDelOne o u st i).1).2) := rfl

/-- The deletion loop likewise only flips `synced` flags locally. -/
theorem pushDels_db (o : Oracle) (u : String) (ids : List String) (st : St) :
    (pushDels o u ids st).1.db = st.db.map (fun r =>
      if ids.any (fun i => r.id == i && !(o (RemoteCall.markDeleted i))) then
        { r with synced := true } else r) := by
  induction ids generalizing st with
  | nil =>
    show st.db = _
    simp
  | cons i rest ih =>
    rw [pushDels_cons]
    show (pushDels o u rest (pushDelOne o u st i).1).1.db = _
    rw [ih]
    by_cases ho : o (RemoteCall.markDeleted i) = true
    · have hone : (pushDelOne o u st i).1 = st := by simp [pushDelOne, ho]
      rw [hone]
      apply List.map_congr_left
      intro r _
      simp only [List.any_cons, ho, Bool.not_true, Bool.and_false, Bool.false_or]
    · rw [Bool.not_eq_true] at ho
      have hone : (pushDelOne o u st i).1.db = setSynced i st.db := by
        simp [pushDelOne, ho]
      rw [hone, setSynced, List.map_map]
      apply List.map_congr_left
      intro r _
      show (if rest.any _ then _ else _) = _
      by_cases hr : (r.id == i) = true
      · simp only [Function.comp, hr, if_true, List.any_cons, ho, Bool.not_false,
          Bool.and_true, Bool.true_or]
        by_cases hc : rest.any
            (fun j => (({ r with synced := true } : Note).id == j
              && !(o (RemoteCall.markDeleted j)))) = true
        · simp [hc]
        · simp [hc]
      · have hr2 : (r.id == i) = false := by rwa [Bool.not_eq_true] at hr
        simp only [Function.comp, hr2, Bool.false_eq_true, if_false, List.any_cons, ho,
          Bool.not_false, Bool.and_true, Bool.false_or]

/-- The push loop touches neither the in-memory list nor the status flags. -/
theorem pushNotes_frame (o : Oracle) (ns : List Note) (st : St) :
    (pushNotes o ns st).1.notes = st.notes ∧ (pushNotes o ns st).1.loading = st.loading ∧
      (pushNotes o ns st).1.error = st.error := by
  induction ns generalizing st with
  | nil => exact ⟨rfl, rfl, rfl⟩
  | cons n rest ih =>
    rw [pushNotes_cons]
    have h2 := ih (pushOne o st n).1
    by_cases ho : o (RemoteCall.upsertRow n.id) = true <;>
      simp only [pushOne, ho, Bool.false_eq_true, if_true, if_false,
        Bool.not_eq_true] at h2 ⊢ <;> exact h2

theorem pushDels_frame (o : Oracle) (u : String) (ids : List String) (st : St) :
    (pushDels o u ids st).1.notes = st.notes ∧ (pushDels o u ids st).1.loading = st.loading ∧
      (pushDels o u ids st).1.error = st.error := by
  induction ids generalizing st with
  | nil => exact ⟨rfl, rfl, rfl⟩
  | cons i rest ih =>
    rw [pushDels_cons]
    have h2 := ih (pushDelOne o u st i).1
    by_cases ho : o (RemoteCall.markDeleted i) = true <;>
      simp only [pushDelOne, ho, Bool.false_eq_true, if_true, if_false,
        Bool.not_eq_true] at h2 ⊢ <;> exact h2

/-- The push loop issues exactly one upsert call per dirty note, in order,
whether or not the call succeeds. -/
theorem pushNotes_calls (o : Oracle) (ns : List Note) (st : St) :
    (pushNotes o ns st).2 = ns.map (fun n => RemoteCall.upsertRow n.id) := by
  induction ns generalizing st with
  | nil => rfl
  | cons n rest ih =>
    rw [pushNotes_cons]
    show (pushOne o st n).2 ++ _ = _
    rw [ih]
    by_cases ho : o (RemoteCall.upsertRow n.id) = true <;> simp [pushOne, ho]

/-- The deletion loop issues exactly one `markDeleted` call per dirty
tombstone id, in order, whether or not the call succeeds. -/
theorem pushDels_calls (o : Oracle) (u : String) (ids : List String) (st : St) :
    (pushDels o u ids st).2 = ids.map RemoteCall.markDeleted := by
  induction ids generalizing st with
  | nil => rfl
  | cons i rest ih =>
    rw [pushDels_cons]
    show (pushDelOne o u st i).2 ++ _ = _
    rw [ih]
    by_cases ho : o (RemoteCall.markDeleted i) = true <;> simp [pushDelOne, ho]

/-! ### Helper lemmas about `fetchNotes`, `pushPhase` and `syncNotes` -/

theorem fetchNotes_remote (env : Env) (o : Oracle) (st : St) :
    (fetchNotes env o st).1.remote = st.remote := by
  rcases env with ⟨u, b⟩
  cases u with
  | none => rfl
  | some u =>
    cases b with
    | false => rfl
    | true =>
      by_cases ho : o (RemoteCall.pull u) = true <;> simp [fetchNotes, ho]

theorem fetchNotes_calls_pull (env : Env) (o : Oracle) (st : St) :
    ∀ c ∈ (fetchNotes env o st).2, isPull c = true := by
  rcases env with ⟨u, b⟩
  cases u with
  | none => intro c hc; cases hc
  | some u =>
    cases b with
    | false => intro c hc; cases hc
    | true =>
      by_cases ho : o (RemoteCall.pull u) = true <;>
        simp only [fetchNotes, ho, Bool.false_eq_true, if_true, if_false] <;>
        intro c hc <;> rw [List.mem_singleton.mp hc] <;> rfl

theorem fetchNotes_online_ok_db (u : String) (o : Oracle) (st : St)
    (hpull : o (RemoteCall.pull u) = false) :
    (fetchNotes ⟨some u, true⟩ o st).1.db
      = applyPull (remoteSelectActive u st.remote) st.db := by
  simp [fetchNotes, hpull]

theorem fetchNotes_online_ok_notes (u : String) (o : Oracle) (st : St)
    (hpull : o (RemoteCall.pull u) = false) :
    (fetchNotes ⟨some u, true⟩ o st).1.notes
      = selectActive u (applyPull (remoteSelectActive u st.remote) st.db) := by
  simp [fetchNotes, hpull]

theorem fetchNotes_online_ok_calls (u : String) (o : Oracle) (st : St)
    (hpull : o (RemoteCall.pull u) = false) :
    (fetchNotes ⟨some u, true⟩ o st).2 = [RemoteCall.pull u] := by
  simp [fetchNotes, hpull]

theorem pushPhase_def (o : Oracle) (u : String) (st : St) :
    pushPhase o u st =
      ((pushDels o u (dirtyDeletions u st.db)
          (pushNotes o (dirtyNotes u st.db) st).1).1,
       (pushNotes o (dirtyNotes u st.db) st).2 ++
         (pushDels o u (dirtyDeletions u st.db)
           (pushNotes o (dirtyNotes u st.db) st).1).2) := rfl

/-- What the push phase does to one local row: the note loop marks it
`synced` when some dirty note with its id is pushed successfully, then the
deletion loop marks it when some dirty tombstone with its id propagates
successfully. -/
def pushMark (o : Oracle) (ns : List Note) (ds : List String) (r : Note) : Note :=
  let r1 := if ns.any (fun m => r.id == m.id && !(o (RemoteCall.upsertRow m.id))) then
    { r with synced := true } else r
  if ds.any (fun i => r1.id == i && !(o (RemoteCall.markDeleted i))) then
    { r1 with synced := true } else r1

/-- The local table after the whole push phase is the pointwise `pushMark` of
the table it started from: the push loops never insert, remove or rewrite
row content — they only flip `synced` flags. -/
theorem pushPhase_db (o : Oracle) (u : String) (st : St) :
    (pushPhase o u st).1.db =
      st.db.map (pushMark o (dirtyNotes u st.db) (dirtyDeletions u st.db)) := by
  rw [pushPhase_def]
  show (pushDels o u (dirtyDeletions u st.db)
      (pushNotes o (dirtyNotes u st.db) st).1).1.db = _
  rw [pushDels_db, pushNotes_db, List.map_map]
  rfl

theorem pushMark_shape (o : Oracle) (ns : List Note) (ds : List String) (r : Note) :
    pushMark o ns ds r = r ∨ pushMark o ns ds r = { r with synced := true } := by
  simp only [pushMark]
  split
  · split
    · right; rfl
    · right; rfl
  · split
    · right; rfl
    · left; rfl

theorem pushMark_id (o : Oracle) (ns : List Note) (ds : List String) (r : Note) :
    (pushMark o ns ds r).id = r.id := by
  rcases pushMark_shape o ns ds r with h | h <;> rw [h]

theorem pushMark_user (o : Oracle) (ns : List Note) (ds : List String) (r : Note) :
    (pushMark o ns ds r).user_id = r.user_id := by
  rcases pushMark_shape o ns ds r with h | h <;> rw [h]

theorem pushMark_eq_self (o : Oracle) (ns : List Note) (ds : List String) (r : Note)
    (h1 : ns.any (fun m => r.id == m.id && !(o (RemoteCall.upsertRow m.id))) = false)
    (h2 : ds.any (fun i => r.id == i && !(o (RemoteCall.markDeleted i))) = false) :
    pushMark o ns ds r = r := by
  have h1n : ¬(ns.any (fun m => r.id == m.id && !(o (RemoteCall.upsertRow m.id))) = true) := by
    rw [h1]
    exact Bool.false_ne_true
  have h2n : ¬(ds.any (fun i => r.id == i && !(o (RemoteCall.markDeleted i))) = true) := by
    rw [h2]
    exact Bool.false_ne_true
  simp only [pushMark]
  rw [if_neg h1n, if_neg h2n]

theorem pushMark_synced_of_note (o : Oracle) (ns : List Note) (ds : List String)
    (r : Note)
    (h1 : ns.any (fun m => r.id == m.id && !(o (RemoteCall.upsertRow m.id))) = true) :
    (pushMark o ns ds r).synced = true := by
  simp only [pushMark]
  rw [if_pos h1]
  split <;> rfl

theorem pushMark_synced_of_del (o : Oracle) (ns : List Note) (ds : List String)
    (r : Note)
    (h2 : ds.any (fun i => r.id == i && !(o (RemoteCall.markDeleted i))) = true) :
    (pushMark o ns ds r).synced = true := by
  simp only [pushMark]
  by_cases h1 : ns.any (fun m => r.id == m.id && !(o (RemoteCall.upsertRow m.id))) = true
  · rw [if_pos h1]
    split <;> rfl
  · rw [if_neg h1, if_pos h2]

theorem pushPhase_frame (o : Oracle) (u : String) (st : St) :
    (pushPhase o u st).1.notes = st.notes ∧ (pushPhase o u st).1.loading = st.loading ∧
      (pushPhase o u st).1.error = st.error := by
  rw [pushPhase_def]
  have h1 := pushNotes_frame o (dirtyNotes u st.db) st
  have h2 := pushDels_frame o u (dirtyDeletions u st.db)
    (pushNotes o (dirtyNotes u st.db) st).1
  exact ⟨h2.1.trans h1.1, h2.2.1.trans h1.2.1, h2.2.2.trans h1.2.2⟩

theorem pushPhase_calls (o : Oracle) (u : String) (st : St) :
    (pushPhase o u st).2 =
      (dirtyNotes u st.db).map (fun n => RemoteCall.upsertRow n.id) ++
        (dirtyDeletions u st.db).map RemoteCall.markDeleted := by
  rw [pushPhase_def]
  show (pushNotes o (dirtyNotes u st.db) st).2 ++ _ = _
  rw [pushNotes_calls, pushDels_calls]

theorem syncNotes_online_def (u : String) (o : Oracle) (st : St) :
    syncNotes ⟨some u, true⟩ o st =
      ({ (fetchNotes ⟨some u, true⟩ o
            (pushPhase o u { st with loading := true, error := none }).1).1 with
          loading := false },
       (pushPhase o u { st with loading := true, error := none }).2 ++
         (fetchNotes ⟨some u, true⟩ o
           (pushPhase o u { st with loading := true, error := none }).1).2) := rfl

/-! ### Claim theorems -/

/-- C1 (code bug exhibit): a create, update or remove performed while offline
writes `synced = 1` — i.e. `true` — into the local row (the write uses
`isOnline ? 0 : 1`), so `listActive` then reports the affected row with
`synced = true`, not `synced = false` as claimed.  Shown at a concrete
offline create, update and remove. -/
theorem offline_mutation_rows_marked_synced :
    ((createNote ⟨some "u", false⟩ okOracle "t0" "n1" "Groceries" "milk"
        ⟨[], [], [], false, none⟩).1.1.db
      = [⟨"n1", "u", "Groceries", "milk", "t0", "t0", true, false⟩]) ∧
    (listActive "u" (createNote ⟨some "u", false⟩ okOracle "t0" "n1" "Groceries" "milk"
        ⟨[], [], [], false, none⟩).1.1
      = [⟨"n1", "u", "Groceries", "milk", "t0", "t0", true, false⟩]) ∧
    ((updateNote ⟨some "u", false⟩ okOracle "t1" "n1" "G2" "eggs"
        ⟨[⟨"n1", "u", "Groceries", "milk", "t0", "t0", true, false⟩], [], [], false,
          none⟩).1.db
      = [⟨"n1", "u", "G2", "eggs", "t0", "t1", true, false⟩]) ∧
    ((deleteNote ⟨some "u", false⟩ okOracle "n1"
        ⟨[⟨"n1", "u", "Groceries", "milk", "t0", "t0", true, false⟩], [], [], false,
          none⟩).1.db
      = [⟨"n1", "u", "Groceries", "milk", "t0", "t0", true, true⟩]) := by
  exact ⟨rfl, rfl, rfl, rfl⟩

/-- C2 (code bug exhibit): a record deleted while offline gets
`synced = 1` written together with its tombstone, so the reconcile that
follows finds no dirty tombstone and issues zero `markDeleted` calls for
that id — not exactly one as claimed.  (The local tombstone row is present
and hidden from `listActive` right after the delete, as also shown.) -/
theorem offline_delete_reconcile_sends_no_tombstone :
    ((deleteNote ⟨some "u", false⟩ okOracle "n1"
        ⟨[⟨"n1", "u", "t", "c", "t0", "t0", true, false⟩],
         [⟨"n1", "u", "t", "c", "t0", "t0", false⟩], [], false, none⟩).1.db
      = [⟨"n1", "u", "t", "c", "t0", "t0", true, true⟩]) ∧
    (listActive "u" (deleteNote ⟨some "u", false⟩ okOracle "n1"
        ⟨[⟨"n1", "u", "t", "c", "t0", "t0", true, false⟩],
         [⟨"n1", "u", "t", "c", "t0", "t0", false⟩], [], false, none⟩).1 = []) ∧
    ((syncNotes ⟨some "u", true⟩ okOracle
        (deleteNote ⟨some "u", false⟩ okOracle "n1"
          ⟨[⟨"n1", "u", "t", "c", "t0", "t0", true, false⟩],
           [⟨"n1", "u", "t", "c", "t0", "t0", false⟩], [], false, none⟩).1).2.count
      (RemoteCall.markDeleted "n1") = 0) := by
  exact ⟨rfl, rfl, rfl⟩

/-- C4 (code bug exhibit): an online create whose remote mirror fails still
returns a Note (no error) and leaves the local row with `synced = false`,
but the returned object carries `synced = true` (it is initialised with
`synced: isOnline`), not `synced = false` as claimed. -/
theorem online_create_mirror_failure_returns_synced_true :
    ((createNote ⟨some "u", true⟩ (fun c => c == RemoteCall.insertRow "n1")
        "t0" "n1" "T" "C" ⟨[], [], [], false, none⟩).2
      = some ⟨"n1", "u", "T", "C", "t0", "t0", true, false⟩) ∧
    ((createNote ⟨some "u", true⟩ (fun c => c == RemoteCall.insertRow "n1")
        "t0" "n1" "T" "C" ⟨[], [], [], false, none⟩).1.1.db
      = [⟨"n1", "u", "T", "C", "t0", "t0", false, false⟩]) := by
  exact ⟨rfl, rfl⟩

/-- C5: every record returned by a successful pull is written into the local
table exactly as `pulledNote r` — with `synced = true` and `deleted = false` —
and it fully replaces any local content for that id: no other row with that
id survives the pull, whatever the prior local row's `updated_at` or dirty
state was. -/
theorem pull_upserts_remote_record (st : St) (u : String) (o : Oracle) (r : RNote)
    (hpull : o (RemoteCall.pull u) = false)
    (hnodup : (st.remote.map RNote.id).Nodup)
    (hr : r ∈ remoteSelectActive u st.remote) :
    pulledNote r ∈ (fetchNotes ⟨some u, true⟩ o st).1.db ∧
    (pulledNote r).synced = true ∧ (pulledNote r).deleted = false ∧
    ∀ x ∈ (fetchNotes ⟨some u, true⟩ o st).1.db, x.id = r.id → x = pulledNote r := by
  have hsub : List.Sublist (st.remote.filter fun x => x.user_id == u && !x.deleted)
      st.remote :=
    List.filter_sublist _
  have h1 : ((st.remote.filter fun x => x.user_id == u && !x.deleted).map RNote.id).Nodup :=
    (hsub.map RNote.id).nodup hnodup
  have hperm := sortByDesc_perm (fun x => x.updated_at)
    (st.remote.filter fun x => x.user_id == u && !x.deleted)
  have hnd : ((remoteSelectActive u st.remote).map RNote.id).Nodup :=
    ((hperm.map RNote.id).nodup_iff).mpr h1
  rw [fetchNotes_online_ok_db u o st hpull]
  exact ⟨pulledNote_mem_applyPull _ _ r hnd hr, rfl, rfl,
    applyPull_unique _ _ r hnd hr⟩

/-- Witness for C5 at a concrete input: one remote record, a stale local row
with the same id, a healthy backend. -/
theorem pull_upserts_remote_record_witness :
    (okOracle (RemoteCall.pull "u") = false) ∧
    ((([⟨"n1", "u", "T", "C", "t2", "t2", false⟩] : List RNote).map RNote.id).Nodup) ∧
    ((⟨"n1", "u", "T", "C", "t2", "t2", false⟩ : RNote)
      ∈ remoteSelectActive "u" [⟨"n1", "u", "T", "C", "t2", "t2", false⟩]) ∧
    (pulledNote ⟨"n1", "u", "T", "C", "t2", "t2", false⟩
      ∈ (fetchNotes ⟨some "u", true⟩ okOracle
          ⟨[⟨"n1", "u", "old", "old", "t0", "t0", false, false⟩],
           [⟨"n1", "u", "T", "C", "t2", "t2", false⟩], [], false, none⟩).1.db) ∧
    (∀ x ∈ (fetchNotes ⟨some "u", true⟩ okOracle
          ⟨[⟨"n1", "u", "old", "old", "t0", "t0", false, false⟩],
           [⟨"n1", "u", "T", "C", "t2", "t2", false⟩], [], false, none⟩).1.db,
      x.id = "n1" → x = pulledNote ⟨"n1", "u", "T", "C", "t2", "t2", false⟩) := by
  have h := pull_upserts_remote_record
    ⟨[⟨"n1", "u", "old", "old", "t0", "t0", false, false⟩],
     [⟨"n1", "u", "T", "C", "t2", "t2", false⟩], [], false, none⟩
    "u" okOracle ⟨"n1", "u", "T", "C", "t2", "t2", false⟩ rfl (by decide) (by decide)
  exact ⟨rfl, by decide, by decide, h.1, h.2.2.2⟩

/-- C8: with no authenticated user, every operation of the store returns
immediately: the local table and the remote collection are untouched, no
remote call is issued, and `createNote` yields no note. -/
theorem unauthenticated_no_effect (b : Bool) (o : Oracle) (st : St)
    (now id title content : String) :
    (fetchNotes ⟨none, b⟩ o st).1.db = st.db ∧
    (fetchNotes ⟨none, b⟩ o st).1.remote = st.remote ∧
    (fetchNotes ⟨none, b⟩ o st).2 = [] ∧
    (createNote ⟨none, b⟩ o now id title content st).1.1.db = st.db ∧
    (createNote ⟨none, b⟩ o now id title content st).1.1.remote = st.remote ∧
    (createNote ⟨none, b⟩ o now id title content st).1.2 = [] ∧
    (createNote ⟨none, b⟩ o now id title content st).2 = none ∧
    (updateNote ⟨none, b⟩ o now id title content st).1.db = st.db ∧
    (updateNote ⟨none, b⟩ o now id title content st).1.remote = st.remote ∧
    (updateNote ⟨none, b⟩ o now id title content st).2 = [] ∧
    (deleteNote ⟨none, b⟩ o id st).1.db = st.db ∧
    (deleteNote ⟨none, b⟩ o id st).1.remote = st.remote ∧
    (deleteNote ⟨none, b⟩ o id st).2 = [] ∧
    (syncNotes ⟨none, b⟩ o st).1 = st ∧
    (syncNotes ⟨none, b⟩ o st).2 = [] :=
  ⟨rfl, rfl, rfl, rfl, rfl, rfl, rfl, rfl, rfl, rfl, rfl, rfl, rfl, rfl, rfl⟩

/-- C9: after `clearUserNotes a` (run on sign-out of owner `a`), no row of
owner `a` remains in the local table and `listActive a` is empty, whatever
the store held before. -/
theorem purge_owner_empties (st : St) (a : String) :
    (∀ r ∈ (clearUserNotes a st).db, r.user_id ≠ a) ∧
    listActive a (clearUserNotes a st) = [] := by
  constructor
  · intro r hr he
    have h2 := (List.mem_filter.mp hr).2
    rw [he] at h2
    simp at h2
  · show selectActive a (st.db.filter _) = []
    rw [selectActive, List.filter_filter]
    have h0 : st.db.filter
        (fun r => (r.user_id == a && !r.deleted) && !(r.user_id == a)) = [] := by
      rw [List.filter_eq_nil_iff]
      intro r _
      by_cases h : (r.user_id == a) = true <;> simp [h]
    rw [h0]
    rfl

/-- In a trace made of a push-only part followed by a pull-only part, every
push index is strictly below every pull index. -/
theorem append_push_lt_pull (a b : List RemoteCall)
    (ha : ∀ c ∈ a, isPull c = false) (hb : ∀ c ∈ b, isPush c = false)
    (i j : Fin (a ++ b).length)
    (hi : isPush ((a ++ b).get i) = true) (hj : isPull ((a ++ b).get j) = true) :
    i.val < j.val := by
  have hia : i.val < a.length := by
    by_contra hcon
    push_neg at hcon
    have hilt : i.val - a.length < b.length := by
      have h1 := i.isLt
      have hlen : (a ++ b).length = a.length + b.length := List.length_append a b
      omega
    have hgb : (a ++ b).get i = b.get ⟨i.val - a.length, hilt⟩ := by
      rw [List.get_eq_getElem, List.get_eq_getElem]
      exact List.getElem_append_right hcon
    have hmem : (a ++ b).get i ∈ b := by
      rw [hgb]
      exact List.get_mem b _ _
    rw [hb _ hmem] at hi
    cases hi
  have hja : a.length ≤ j.val := by
    by_contra hcon
    push_neg at hcon
    have hga : (a ++ b).get j = a.get ⟨j.val, hcon⟩ := by
      rw [List.get_eq_getElem, List.get_eq_getElem]
      exact List.getElem_append_left hcon
    have hmem : (a ++ b).get j ∈ a := by
      rw [hga]
      exact List.get_mem a _ _
    rw [ha _ hmem] at hj
    cases hj
  omega

/-- C3 (counterexample): at a concrete reconcile with one dirty note the
trace of remote calls is `[upsertRow "n1", pull "u"]` — the pull is issued
after the push of the dirty record, so the claimed strict pull-before-push
order inside one `syncNotes` pass is false. -/
theorem reconcile_pull_not_before_push :
    ((syncNotes ⟨some "u", true⟩ okOracle
        ⟨[⟨"n1", "u", "t", "c", "t0", "t0", false, false⟩], [], [], false, none⟩).2
      = [RemoteCall.upsertRow "n1", RemoteCall.pull "u"]) ∧
    ¬ pullStrictlyBeforePush (syncNotes ⟨some "u", true⟩ okOracle
        ⟨[⟨"n1", "u", "t", "c", "t0", "t0", false, false⟩], [], [], false, none⟩).2 := by
  constructor
  · rfl
  · decide

/-- C3 (amended): within one `syncNotes` pass the order is the reverse of the
claimed one — every push-phase call (upsert of a dirty record, propagation of
a dirty tombstone) strictly precedes every pull in the pass's trace. -/
theorem push_strictly_precedes_pull (u : String) (o : Oracle) (st : St)
    (i j : Fin (syncNotes ⟨some u, true⟩ o st).2.length)
    (hi : isPush ((syncNotes ⟨some u, true⟩ o st).2.get i) = true)
    (hj : isPull ((syncNotes ⟨some u, true⟩ o st).2.get j) = true) :
    i.val < j.val := by
  have htr : (syncNotes ⟨some u, true⟩ o st).2 =
      (pushPhase o u { st with loading := true, error := none }).2 ++
        (fetchNotes ⟨some u, true⟩ o
          (pushPhase o u { st with loading := true, error := none }).1).2 := rfl
  have ha : ∀ c ∈ (pushPhase o u { st with loading := true, error := none }).2,
      isPull c = false := by
    intro c hc
    rw [pushPhase_calls] at hc
    rcases List.mem_append.mp hc with h | h <;> rcases List.mem_map.mp h with ⟨x, _, hx⟩ <;>
      rw [← hx] <;> rfl
  have hb : ∀ c ∈ (fetchNotes ⟨some u, true⟩ o
      (pushPhase o u { st with loading := true, error := none }).1).2,
      isPush c = false := by
    intro c hc
    have := fetchNotes_calls_pull ⟨some u, true⟩ o
      (pushPhase o u { st with loading := true, error := none }).1 c hc
    cases c with
    | pull v => rfl
    | insertRow v => cases this
    | updateRow v => cases this
    | markDeleted v => cases this
    | upsertRow v => cases this
  revert i j hi hj
  rw [htr]
  intro i j hi hj
  exact append_push_lt_pull _ _ ha hb i j hi hj

/-- Witness for the amended C3 at the concrete trace
`[upsertRow "n1", pull "u"]`: the push at index 0 precedes the pull at
index 1. -/
theorem push_strictly_precedes_pull_witness :
    (isPush ((syncNotes ⟨some "u", true⟩ okOracle
        ⟨[⟨"n1", "u", "t", "c", "t0", "t0", false, false⟩], [], [], false, none⟩).2.get
          ⟨0, by decide⟩) = true) ∧
    (isPull ((syncNotes ⟨some "u", true⟩ okOracle
        ⟨[⟨"n1", "u", "t", "c", "t0", "t0", false, false⟩], [], [], false, none⟩).2.get
          ⟨1, by decide⟩) = true) ∧
    ((0 : Nat) < 1) := by
  refine ⟨by decide, by decide, ?_⟩
  exact push_strictly_precedes_pull "u" okOracle
    ⟨[⟨"n1", "u", "t", "c", "t0", "t0", false, false⟩], [], [], false, none⟩
    ⟨0, by decide⟩ ⟨1, by decide⟩ (by decide) (by decide)

/-- C6: during the push phase of a reconcile pass, a RemoteError on the push
of one dirty record leaves that record's `synced` flag false after the
phase; the push of every other dirty record and of every dirty tombstone is
still attempted (its call appears in the phase's trace); and every dirty
record whose push succeeds ends the phase marked `synced = true`. -/
theorem push_failure_isolated (st : St) (u : String) (o : Oracle) (n : Note)
    (hnodup : (st.db.map Note.id).Nodup)
    (hn : n ∈ dirtyNotes u st.db)
    (hfail : o (RemoteCall.upsertRow n.id) = true) :
    (∀ x ∈ (pushPhase o u st).1.db, x.id = n.id → x.synced = false) ∧
    (∀ m ∈ dirtyNotes u st.db, RemoteCall.upsertRow m.id ∈ (pushPhase o u st).2) ∧
    (∀ i ∈ dirtyDeletions u st.db, RemoteCall.markDeleted i ∈ (pushPhase o u st).2) ∧
    (∀ m ∈ dirtyNotes u st.db, o (RemoteCall.upsertRow m.id) = false →
      ∀ x ∈ (pushPhase o u st).1.db, x.id = m.id → x.synced = true) := by
  have hnmem : n ∈ st.db := (List.mem_filter.mp hn).1
  have hncond := (List.mem_filter.mp hn).2
  rw [Bool.and_eq_true, Bool.and_eq_true] at hncond
  rcases hncond with ⟨⟨_, hnsy⟩, hnde⟩
  rw [Bool.not_eq_true'] at hnsy hnde
  refine ⟨?_, ?_, ?_, ?_⟩
  · intro x hx hxid
    rw [pushPhase_db] at hx
    rcases List.mem_map.mp hx with ⟨r, hr, hfx⟩
    have hrid : r.id = n.id := by rw [← hxid, ← hfx, pushMark_id]
    have hrn : r = n := List.inj_on_of_nodup_map hnodup hr hnmem hrid
    subst hrn
    have hc1 : (dirtyNotes u st.db).any
        (fun m => r.id == m.id && !(o (RemoteCall.upsertRow m.id))) = false := by
      rw [List.any_eq_false]
      intro m hm hp
      rw [Bool.and_eq_true] at hp
      rcases hp with ⟨hid2, hno⟩
      have hmmem : m ∈ st.db := (List.mem_filter.mp hm).1
      have hmid : m.id = r.id := (beq_iff_eq.mp hid2).symm
      have hmr : m = r := List.inj_on_of_nodup_map hnodup hmmem hr hmid
      rw [hmr, hfail] at hno
      cases hno
    have hc2 : (dirtyDeletions u st.db).any
        (fun i => r.id == i && !(o (RemoteCall.markDeleted i))) = false := by
      rw [List.any_eq_false]
      intro i hi hp
      rw [Bool.and_eq_true] at hp
      rcases hp with ⟨hid2, _⟩
      rcases List.mem_map.mp hi with ⟨w, hw, hwid⟩
      have hwmem : w ∈ st.db := (List.mem_filter.mp hw).1
      have hwcond := (List.mem_filter.mp hw).2
      rw [Bool.and_eq_true, Bool.and_eq_true] at hwcond
      have hwdel : w.deleted = true := hwcond.2
      have hwidr : w.id = r.id := by
        rw [hwid]
        exact (beq_iff_eq.mp hid2).symm
      have hwr : w = r := List.inj_on_of_nodup_map hnodup hwmem hr hwidr
      rw [hwr, hnde] at hwdel
      cases hwdel
    rw [← hfx, pushMark_eq_self o _ _ r hc1 hc2]
    exact hnsy
  · intro m hm
    rw [pushPhase_calls]
    exact List.mem_append_left _ (List.mem_map_of_mem _ hm)
  · intro i hi
    rw [pushPhase_calls]
    exact List.mem_append_right _ (List.mem_map_of_mem RemoteCall.markDeleted hi)
  · intro m hm hok x hx hxid
    rw [pushPhase_db] at hx
    rcases List.mem_map.mp hx with ⟨r, hr, hfx⟩
    have hrid : r.id = m.id := by rw [← hxid, ← hfx, pushMark_id]
    have hc1 : (dirtyNotes u st.db).any
        (fun m2 => r.id == m2.id && !(o (RemoteCall.upsertRow m2.id))) = true := by
      rw [List.any_eq_true]
      refine ⟨m, hm, ?_⟩
      rw [Bool.and_eq_true]
      exact ⟨beq_iff_eq.mpr hrid, by rw [hok]; rfl⟩
    rw [← hfx]
    exact pushMark_synced_of_note o _ _ r hc1

/-- Witness for C6: two dirty notes and one dirty tombstone; the backend
rejects the push of "n1" only.  "n1" stays dirty, all three calls are
issued, "n2" ends up synced. -/
theorem push_failure_isolated_witness :
    (((⟨[⟨"n1", "u", "a", "b", "t0", "t0", false, false⟩,
         ⟨"n2", "u", "c", "d", "t0", "t0", false, false⟩,
         ⟨"n3", "u", "e", "f", "t0", "t0", false, true⟩], [], [], false, none⟩ : St).db.map
        Note.id).Nodup) ∧
    ((⟨"n1", "u", "a", "b", "t0", "t0", false, false⟩ : Note) ∈ dirtyNotes "u"
      (⟨[⟨"n1", "u", "a", "b", "t0", "t0", false, false⟩,
         ⟨"n2", "u", "c", "d", "t0", "t0", false, false⟩,
         ⟨"n3", "u", "e", "f", "t0", "t0", false, true⟩], [], [], false, none⟩ : St).db) ∧
    ((fun c => c == RemoteCall.upsertRow "n1")
      (RemoteCall.upsertRow (⟨"n1", "u", "a", "b", "t0", "t0", false, false⟩ : Note).id)
        = true) ∧
    (∀ x ∈ (pushPhase (fun c => c == RemoteCall.upsertRow "n1") "u"
        ⟨[⟨"n1", "u", "a", "b", "t0", "t0", false, false⟩,
          ⟨"n2", "u", "c", "d", "t0", "t0", false, false⟩,
          ⟨"n3", "u", "e", "f", "t0", "t0", false, true⟩], [], [], false, none⟩).1.db,
      x.id = (⟨"n1", "u", "a", "b", "t0", "t0", false, false⟩ : Note).id →
        x.synced = false) := by
  have h := push_failure_isolated
    ⟨[⟨"n1", "u", "a", "b", "t0", "t0", false, false⟩,
      ⟨"n2", "u", "c", "d", "t0", "t0", false, false⟩,
      ⟨"n3", "u", "e", "f", "t0", "t0", false, true⟩], [], [], false, none⟩
    "u" (fun c => c == RemoteCall.upsertRow "n1")
    ⟨"n1", "u", "a", "b", "t0", "t0", false, false⟩
    (by decide) (by decide) (by decide)
  exact ⟨by decide, by decide, by decide, h.1⟩

/-- All remote rows with the given id are tombstoned, and at least one such
row exists (the record was soft-deleted on the remote side). -/
def RemoteDeletedAt (i : String) (rdb : List RNote) : Prop :=
  (∃ rr ∈ rdb, rr.id = i) ∧ ∀ rr ∈ rdb, rr.id = i → rr.deleted = true

theorem remoteUpsert_deletedAt (i : String) (n : Note) (rdb : List RNote)
    (h : RemoteDeletedAt i rdb) : RemoteDeletedAt i (remoteUpsert n rdb) := by
  rcases h with ⟨⟨e, he, hei⟩, hall⟩
  rw [remoteUpsert]
  by_cases hany : rdb.any (fun r => r.id == n.id) = true
  · rw [if_pos hany]
    constructor
    · refine ⟨_, List.mem_map_of_mem _ he, ?_⟩
      by_cases hc : (e.id == n.id) = true
      · rw [if_pos hc]; exact hei
      · rw [if_neg hc]; exact hei
    · intro rr hrr hrri
      rcases List.mem_map.mp hrr with ⟨w, hw, hwrr⟩
      by_cases hc : (w.id == n.id) = true
      · rw [if_pos hc] at hwrr
        have hwi : w.id = i := by rw [← hrri, ← hwrr]
        have := hall w hw hwi
        rw [← hwrr]
        exact this
      · rw [if_neg hc] at hwrr
        exact hwrr ▸ hall w hw (hwrr ▸ hrri)
  · rw [if_neg hany]
    constructor
    · exact ⟨e, List.mem_append_left _ he, hei⟩
    · intro rr hrr hrri
      rcases List.mem_append.mp hrr with hl | hrt
      · exact hall rr hl hrri
      · exfalso
        rw [List.mem_singleton] at hrt
        have hni : n.id = i := by rw [← hrri, hrt]
        apply hany
        rw [List.any_eq_true]
        exact ⟨e, he, beq_iff_eq.mpr (by rw [hei, hni])⟩

theorem remoteMarkDeleted_deletedAt (i j u : String) (rdb : List RNote)
    (h : RemoteDeletedAt i rdb) : RemoteDeletedAt i (remoteMarkDeleted j u rdb) := by
  rcases h with ⟨⟨e, he, hei⟩, hall⟩
  rw [remoteMarkDeleted]
  constructor
  · refine ⟨_, List.mem_map_of_mem _ he, ?_⟩
    by_cases hc : (e.id == j && e.user_id == u) = true
    · rw [if_pos hc]; exact hei
    · rw [if_neg hc]; exact hei
  · intro rr hrr hrri
    rcases List.mem_map.mp hrr with ⟨w, hw, hwrr⟩
    by_cases hc : (w.id == j && w.user_id == u) = true
    · rw [if_pos hc] at hwrr
      rw [← hwrr]
    · rw [if_neg hc] at hwrr
      exact hwrr ▸ hall w hw (hwrr ▸ hrri)

theorem pushNotes_remote_deletedAt (o : Oracle) (ns : List Note) (st : St) (i : String)
    (h : RemoteDeletedAt i st.remote) :
    RemoteDeletedAt i (pushNotes o ns st).1.remote := by
  induction ns generalizing st with
  | nil => exact h
  | cons n rest ih =>
    rw [pushNotes_cons]
    show RemoteDeletedAt i (pushNotes o rest (pushOne o st n).1).1.remote
    apply ih
    by_cases ho : o (RemoteCall.upsertRow n.id) = true
    · simpa [pushOne, ho] using h
    · rw [Bool.not_eq_true] at ho
      have hrw : (pushOne o st n).1.remote = remoteUpsert n st.remote := by
        simp [pushOne, ho]
      rw [hrw]
      exact remoteUpsert_deletedAt i n st.remote h

theorem pushDels_remote_deletedAt (o : Oracle) (u : String) (ids : List String)
    (st : St) (i : String) (h : RemoteDeletedAt i st.remote) :
    RemoteDeletedAt i (pushDels o u ids st).1.remote := by
  induction ids generalizing st with
  | nil => exact h
  | cons j rest ih =>
    rw [pushDels_cons]
    show RemoteDeletedAt i (pushDels o u rest (pushDelOne o u st j).1).1.remote
    apply ih
    by_cases ho : o (RemoteCall.markDeleted j) = true
    · simpa [pushDelOne, ho] using h
    · rw [Bool.not_eq_true] at ho
      have hrw : (pushDelOne o u st j).1.remote = remoteMarkDeleted j u st.remote := by
        simp [pushDelOne, ho]
      rw [hrw]
      exact remoteMarkDeleted_deletedAt i j u st.remote h

theorem pushPhase_remote_deletedAt (o : Oracle) (u : String) (st : St) (i : String)
    (h : RemoteDeletedAt i st.remote) :
    RemoteDeletedAt i (pushPhase o u st).1.remote := by
  rw [pushPhase_def]
  show RemoteDeletedAt i (pushDels o u (dirtyDeletions u st.db)
    (pushNotes o (dirtyNotes u st.db) st).1).1.remote
  exact pushDels_remote_deletedAt o u _ _ i
    (pushNotes_remote_deletedAt o _ st i h)

/-- A record whose remote rows are all tombstoned never shows up in a pull. -/
theorem hasId_remoteSelectActive_eq_false (u i : String) (rdb : List RNote)
    (h : ∀ rr ∈ rdb, rr.id = i → rr.deleted = true) :
    hasId (remoteSelectActive u rdb) i = false := by
  rw [hasId, List.any_eq_false]
  intro d hd hp
  have hdi : d.id = i := beq_iff_eq.mp hp
  have hd2 : d ∈ rdb.filter (fun x => x.user_id == u && !x.deleted) := by
    rw [← mem_sortByDesc (fun x => x.updated_at)]
    exact hd
  have hcond := (List.mem_filter.mp hd2).2
  rw [Bool.and_eq_true] at hcond
  have hdel : d.deleted = false := by
    have h2 := hcond.2
    rwa [Bool.not_eq_true'] at h2
  have h3 := h d (List.mem_filter.mp hd2).1 hdi
  rw [h3] at hdel
  cases hdel

/-- The push phase keeps every local row, possibly with a different `synced`
flag but with all other columns intact. -/
theorem pushPhase_mem_image (o : Oracle) (u : String) (st : St) (r : Note)
    (hr : r ∈ st.db) :
    ∃ b : Bool, { r with synced := b } ∈ (pushPhase o u st).1.db := by
  rw [pushPhase_db]
  rcases pushMark_shape o (dirtyNotes u st.db) (dirtyDeletions u st.db) r with h | h
  · refine ⟨r.synced, ?_⟩
    have he : ({ r with synced := r.synced } : Note) = r := rfl
    rw [he, ← h]
    exact List.mem_map_of_mem _ hr
  · refine ⟨true, ?_⟩
    rw [← h]
    exact List.mem_map_of_mem _ hr

/-- C10: the pull phase never deletes or tombstones local rows.  A local row
whose id is absent from the pulled data is kept verbatim by a refresh; and a
record that is tombstoned on the remote side stays physically present and
active (`deleted = false`) locally after a refresh and after a full
reconcile (the push phase can at most flip its `synced` flag). -/
theorem pull_never_deletes_local (st : St) (u : String) (o : Oracle) (r : Note)
    (hpull : o (RemoteCall.pull u) = false)
    (hr : r ∈ st.db) :
    (hasId (remoteSelectActive u st.remote) r.id = false →
      r ∈ (fetchNotes ⟨some u, true⟩ o st).1.db) ∧
    ((∀ rr ∈ st.remote, rr.id = r.id → rr.deleted = true) →
      (∃ rr ∈ st.remote, rr.id = r.id) → r.deleted = false →
      (r ∈ (fetchNotes ⟨some u, true⟩ o st).1.db ∧
        ∃ b : Bool, { r with synced := b } ∈ (syncNotes ⟨some u, true⟩ o st).1.db ∧
          ({ r with synced := b } : Note).deleted = false)) := by
  have hframe : hasId (remoteSelectActive u st.remote) r.id = false →
      r ∈ (fetchNotes ⟨some u, true⟩ o st).1.db := by
    intro hno
    rw [fetchNotes_online_ok_db u o st hpull, applyPull_eq_filter_append]
    apply List.mem_append_left
    rw [List.mem_filter]
    refine ⟨hr, ?_⟩
    rw [hno]
    rfl
  refine ⟨hframe, ?_⟩
  intro hall hex hdel
  have hinv : RemoteDeletedAt r.id st.remote := ⟨hex, hall⟩
  refine ⟨hframe (hasId_remoteSelectActive_eq_false u r.id st.remote hall), ?_⟩
  have hinv2 : RemoteDeletedAt r.id
      (pushPhase o u { st with loading := true, error := none }).1.remote :=
    pushPhase_remote_deletedAt o u _ r.id hinv
  rcases pushPhase_mem_image o u { st with loading := true, error := none } r hr
    with ⟨b, hb⟩
  refine ⟨b, ?_, ?_⟩
  · have hdb : (syncNotes ⟨some u, true⟩ o st).1.db
        = applyPull
            (remoteSelectActive u
              (pushPhase o u { st with loading := true, error := none }).1.remote)
            (pushPhase o u { st with loading := true, error := none }).1.db := by
      rw [syncNotes_online_def]
      show (fetchNotes ⟨some u, true⟩ o
        (pushPhase o u { st with loading := true, error := none }).1).1.db = _
      exact fetchNotes_online_ok_db u o _ hpull
    rw [hdb, applyPull_eq_filter_append]
    apply List.mem_append_left
    rw [List.mem_filter]
    refine ⟨hb, ?_⟩
    have hno2 : hasId
        (remoteSelectActive u
          (pushPhase o u { st with loading := true, error := none }).1.remote)
        ({ r with synced := b } : Note).id = false := by
      have : ({ r with synced := b } : Note).id = r.id := rfl
      rw [this]
      exact hasId_remoteSelectActive_eq_false u r.id _ hinv2.2
    rw [hno2]
    rfl
  · show r.deleted = false
    exact hdel

/-- Witness for C10: one active local row, its remote counterpart tombstoned
by another device; the row survives refresh and reconcile, still active. -/
theorem pull_never_deletes_local_witness :
    (okOracle (RemoteCall.pull "u") = false) ∧
    ((⟨"n1", "u", "a", "b", "t0", "t0", true, false⟩ : Note)
      ∈ (⟨[⟨"n1", "u", "a", "b", "t0", "t0", true, false⟩],
          [⟨"n1", "u", "a", "b", "t0", "t1", true⟩], [], false, none⟩ : St).db) ∧
    (∀ rr ∈ (⟨[⟨"n1", "u", "a", "b", "t0", "t0", true, false⟩],
          [⟨"n1", "u", "a", "b", "t0", "t1", true⟩], [], false, none⟩ : St).remote,
      rr.id = (⟨"n1", "u", "a", "b", "t0", "t0", true, false⟩ : Note).id →
        rr.deleted = true) ∧
    ((⟨"n1", "u", "a", "b", "t0", "t0", true, false⟩ : Note)
      ∈ (fetchNotes ⟨some "u", true⟩ okOracle
          ⟨[⟨"n1", "u", "a", "b", "t0", "t0", true, false⟩],
           [⟨"n1", "u", "a", "b", "t0", "t1", true⟩], [], false, none⟩).1.db) ∧
    (∃ b : Bool, ({ (⟨"n1", "u", "a", "b", "t0", "t0", true, false⟩ : Note) with
        synced := b } : Note)
      ∈ (syncNotes ⟨some "u", true⟩ okOracle
          ⟨[⟨"n1", "u", "a", "b", "t0", "t0", true, false⟩],
           [⟨"n1", "u", "a", "b", "t0", "t1", true⟩], [], false, none⟩).1.db) := by
  have h := pull_never_deletes_local
    ⟨[⟨"n1", "u", "a", "b", "t0", "t0", true, false⟩],
     [⟨"n1", "u", "a", "b", "t0", "t1", true⟩], [], false, none⟩
    "u" okOracle ⟨"n1", "u", "a", "b", "t0", "t0", true, false⟩ rfl (by decide)
  have h2 := h.2 (by decide) (by decide) rfl
  rcases h2.2 with ⟨b, hb, _⟩
  exact ⟨rfl, by decide, by decide, h2.1, ⟨b, hb⟩⟩

/-- With a reachable backend, the push phase leaves every row of the current
owner marked `synced`. -/
theorem pushPhase_ok_all_synced (u : String) (st : St) :
    ∀ x ∈ (pushPhase okOracle u st).1.db, x.user_id = u → x.synced = true := by
  intro x hx hxu
  rw [pushPhase_db] at hx
  rcases List.mem_map.mp hx with ⟨r, hr, hfx⟩
  have hru : r.user_id = u := by rw [← hxu, ← hfx, pushMark_user]
  by_cases hsy : r.synced = true
  · rcases pushMark_shape okOracle (dirtyNotes u st.db) (dirtyDeletions u st.db) r
      with h | h
    · rw [← hfx, h]; exact hsy
    · rw [← hfx, h]
  · rw [Bool.not_eq_true] at hsy
    by_cases hde : r.deleted = true
    · have hds : (dirtyDeletions u st.db).any
          (fun i => r.id == i && !(okOracle (RemoteCall.markDeleted i))) = true := by
        rw [List.any_eq_true]
        refine ⟨r.id, ?_, ?_⟩
        · rw [dirtyDeletions]
          apply List.mem_map_of_mem
          rw [List.mem_filter]
          refine ⟨hr, ?_⟩
          rw [Bool.and_eq_true, Bool.and_eq_true]
          exact ⟨⟨beq_iff_eq.mpr hru, by rw [hsy]; rfl⟩, hde⟩
        · rw [Bool.and_eq_true]
          exact ⟨beq_iff_eq.mpr rfl, rfl⟩
      rw [← hfx]
      exact pushMark_synced_of_del okOracle _ _ r hds
    · rw [Bool.not_eq_true] at hde
      have hns : (dirtyNotes u st.db).any
          (fun m => r.id == m.id && !(okOracle (RemoteCall.upsertRow m.id))) = true := by
        rw [List.any_eq_true]
        refine ⟨r, ?_, ?_⟩
        · rw [dirtyNotes, List.mem_filter]
          refine ⟨hr, ?_⟩
          rw [Bool.and_eq_true, Bool.and_eq_true]
          exact ⟨⟨beq_iff_eq.mpr hru, by rw [hsy]; rfl⟩, by rw [hde]; rfl⟩
        · rw [Bool.and_eq_true]
          exact ⟨beq_iff_eq.mpr rfl, rfl⟩
      rw [← hfx]
      exact pushMark_synced_of_note okOracle _ _ r hns

theorem syncNotes_ok_db (u : String) (st : St) :
    (syncNotes ⟨some u, true⟩ okOracle st).1.db
      = applyPull
          (remoteSelectActive u
            (pushPhase okOracle u { st with loading := true, error := none }).1.remote)
          (pushPhase okOracle u { st with loading := true, error := none }).1.db := by
  rw [syncNotes_online_def]
  show (fetchNotes ⟨some u, true⟩ okOracle
    (pushPhase okOracle u { st with loading := true, error := none }).1).1.db = _
  exact fetchNotes_online_ok_db u okOracle _ rfl

theorem syncNotes_ok_notes (u : String) (st : St) :
    (syncNotes ⟨some u, true⟩ okOracle st).1.notes
      = selectActive u (syncNotes ⟨some u, true⟩ okOracle st).1.db := by
  rw [syncNotes_ok_db, syncNotes_online_def]
  show (fetchNotes ⟨some u, true⟩ okOracle
    (pushPhase okOracle u { st with loading := true, error := none }).1).1.notes = _
  exact fetchNotes_online_ok_notes u okOracle _ rfl

theorem syncNotes_ok_remote (u : String) (st : St) :
    (syncNotes ⟨some u, true⟩ okOracle st).1.remote
      = (pushPhase okOracle u { st with loading := true, error := none }).1.remote := by
  rw [syncNotes_online_def]
  show (fetchNotes ⟨some u, true⟩ okOracle
    (pushPhase okOracle u { st with loading := true, error := none }).1).1.remote = _
  exact fetchNotes_remote _ okOracle _

/-- After one reconcile against a reachable backend, every local row of the
owner is marked `synced`. -/
theorem syncNotes_ok_all_synced (u : String) (st : St) :
    ∀ x ∈ (syncNotes ⟨some u, true⟩ okOracle st).1.db, x.user_id = u →
      x.synced = true := by
  intro x hx hxu
  rw [syncNotes_ok_db, applyPull_eq_filter_append] at hx
  rcases List.mem_append.mp hx with h | h
  · exact pushPhase_ok_all_synced u _ x (List.mem_filter.mp h).1 hxu
  · rcases mem_applyPull_nil _ _ h with ⟨q, _, hq⟩
    rw [hq]
    rfl

theorem dirty_empty_of_all_synced (u : String) (db : List Note)
    (h : ∀ x ∈ db, x.user_id = u → x.synced = true) :
    dirtyNotes u db = [] ∧ dirtyDeletions u db = [] := by
  constructor
  · rw [dirtyNotes, List.filter_eq_nil_iff]
    intro r hr hp
    rw [Bool.and_eq_true, Bool.and_eq_true] at hp
    rcases hp with ⟨⟨hu, hsy⟩, _⟩
    have h2 := h r hr (beq_iff_eq.mp hu)
    rw [h2] at hsy
    simp at hsy
  · rw [dirtyDeletions]
    have h0 : db.filter (fun r => r.user_id == u && !r.synced && r.deleted) = [] := by
      rw [List.filter_eq_nil_iff]
      intro r hr hp
      rw [Bool.and_eq_true, Bool.and_eq_true] at hp
      rcases hp with ⟨⟨hu, hsy⟩, _⟩
      have h2 := h r hr (beq_iff_eq.mp hu)
      rw [h2] at hsy
      simp at hsy
    rw [h0]
    rfl

theorem pushPhase_no_dirty (o : Oracle) (u : String) (st : St)
    (h1 : dirtyNotes u st.db = []) (h2 : dirtyDeletions u st.db = []) :
    pushPhase o u st = (st, []) := by
  rw [pushPhase_def, h1, h2]
  rfl

/-- C7: with a stable, reachable backend, running `syncNotes` a second time
right after a first one (no intervening local mutation) changes nothing
observable: the local table and the published in-memory listing after the
second pass equal those after the first, and after the first pass every
local row of the owner already carries `synced = true`. -/
theorem reconcile_idempotent (st : St) (u : String) :
    ((syncNotes ⟨some u, true⟩ okOracle
        (syncNotes ⟨some u, true⟩ okOracle st).1).1.db
      = (syncNotes ⟨some u, true⟩ okOracle st).1.db) ∧
    ((syncNotes ⟨some u, true⟩ okOracle
        (syncNotes ⟨some u, true⟩ okOracle st).1).1.notes
      = (syncNotes ⟨some u, true⟩ okOracle st).1.notes) ∧
    (∀ r ∈ (syncNotes ⟨some u, true⟩ okOracle st).1.db, r.user_id = u →
      r.synced = true) := by
  have hall := syncNotes_ok_all_synced u st
  have hdirty := dirty_empty_of_all_synced u (syncNotes ⟨some u, true⟩ okOracle st).1.db
    hall
  have hpp : pushPhase okOracle u
      { (syncNotes ⟨some u, true⟩ okOracle st).1 with loading := true, error := none }
      = ({ (syncNotes ⟨some u, true⟩ okOracle st).1 with
            loading := true, error := none }, []) :=
    pushPhase_no_dirty okOracle u _ hdirty.1 hdirty.2
  have hdb2 : (syncNotes ⟨some u, true⟩ okOracle
      (syncNotes ⟨some u, true⟩ okOracle st).1).1.db
      = applyPull
          (remoteSelectActive u (syncNotes ⟨some u, true⟩ okOracle st).1.remote)
          (syncNotes ⟨some u, true⟩ okOracle st).1.db := by
    rw [syncNotes_ok_db u (syncNotes ⟨some u, true⟩ okOracle st).1, hpp]
  have hdbfix : (syncNotes ⟨some u, true⟩ okOracle
      (syncNotes ⟨some u, true⟩ okOracle st).1).1.db
      = (syncNotes ⟨some u, true⟩ okOracle st).1.db := by
    rw [hdb2, syncNotes_ok_remote, syncNotes_ok_db]
    exact applyPull_idem _ _
  refine ⟨hdbfix, ?_, hall⟩
  rw [syncNotes_ok_notes u (syncNotes ⟨some u, true⟩ okOracle st).1, hdbfix,
    syncNotes_ok_notes u st]

end Annote
